import Mathlib

/-!
# Verification of the PosterGen Smart Pagination Engine

A shallow embedding of `src/core/parser.py` (class `SmartParser`): the
tokenizer (`_tokenize`), the height estimator (`_create_block` and
`_get_image_height`), the list splitter (`_try_split_list`) and the
paginator (`_paginate`), together with theorems settling the specification
claims about them.

Texts and lines are modelled as `List Char`; Python floats are modelled as
exact rationals `ℚ` (every height formula in the source uses only the four
arithmetic operations, `min` and `max` on small values, where float and
rational arithmetic agree in spirit; the claims under study are about the
structure of the computation, not float rounding).

Two aspects of the source are external effects and are abstracted as
function parameters, threaded through every definition that needs them:

* `res : List Char → Option ℚ` models the image fetch inside
  `_get_image_height` (download + PIL open): `res url = some ar` means the
  image resolved with aspect ratio `ar = width / height`, `none` means any
  failure (network error, decode error, malformed URL).  The body of
  `_get_image_height` past that point is embedded faithfully.
* `mc : List Char → Bool` models the test `'card' in markdown.markdown(content)`
  of `_create_block` (the `markdown` library is an external renderer; only
  this boolean about its output influences the data the claims mention).
-/

/-! ## Python string primitives -/

/-- The characters stripped by Python's `str.strip()` / `\s` (ASCII). -/
def pySpaceB (c : Char) : Bool :=
  c == ' ' || c == '\t' || c == '\n' || c == '\r' || c == '\x0b' || c == '\x0c'

/-- Python `str.lstrip()`. -/
def pyLstrip (l : List Char) : List Char := l.dropWhile pySpaceB

/-- Python `str.rstrip()`. -/
def pyRstrip (l : List Char) : List Char := (l.reverse.dropWhile pySpaceB).reverse

/-- Python `str.strip()`. -/
def pyStrip (l : List Char) : List Char := pyLstrip (pyRstrip l)

/-- Python `str.split('\n')`: always returns at least one piece. -/
def pySplitNl : List Char → List (List Char)
  | [] => [[]]
  | c :: rest =>
    if c = '\n' then [] :: pySplitNl rest
    else
      match pySplitNl rest with
      | t :: ts => (c :: t) :: ts
      | [] => [[c]]

/-- Python `'\n'.join(...)`. -/
def joinNl : List (List Char) → List Char
  | [] => []
  | [l] => l
  | l :: rest => l ++ '\n' :: joinNl rest

/-- Python `str.startswith(pat)` (first argument is the pattern). -/
def startsWithL : List Char → List Char → Bool
  | [], _ => true
  | _ :: _, [] => false
  | p :: ps, c :: cs => p == c && startsWithL ps cs

/-- First index `≥ 0` in `l` where the pattern occurs as a contiguous run. -/
def findSubGo (pat : List Char) : List Char → Nat → Option Nat
  | [], i => if pat.isEmpty then some i else none
  | c :: cs, i => if startsWithL pat (c :: cs) then some i else findSubGo pat cs (i + 1)

/-- First index `≥ start` in `l` where the pattern occurs. -/
def findSubIdx (pat l : List Char) (start : Nat) : Option Nat :=
  (findSubGo pat (l.drop start) 0).map (· + start)

/-! ## Block model and height estimator (`_create_block`, `_get_image_height`) -/

/-- The block type tags used by the parser (`'p'`, `'h1'`, ..., plus the
`'blockquote'` tag that `_create_block` substitutes for a paragraph that
starts with `>`). -/
inductive BType where
  | p | h1 | h2 | h3 | list | code | image | blockquote
  deriving DecidableEq, Repr, Inhabited

/-- The dict `{'type': ..., 'content': ..., 'height': ...}` returned by
`_create_block` (the `'html'` entry is an external-renderer artifact that no
claim mentions and is omitted; the one place its value feeds back into the
data model — the `'card' in html` test — is abstracted by the `mc`
parameter). -/
structure Block where
  btype : BType
  content : List Char
  height : ℚ
  deriving DecidableEq, Repr, Inhabited

/-- `re.sub(r'^(\s*[-*]|\s*\d+\.)\s*', '', item)`: strip one leading list
marker (bullet or `N.`) together with surrounding whitespace. -/
def cleanItem (l : List Char) : List Char :=
  match l.dropWhile pySpaceB with
  | '-' :: cs => cs.dropWhile pySpaceB
  | '*' :: cs => cs.dropWhile pySpaceB
  | c :: cs =>
    if c.isDigit then
      match (c :: cs).dropWhile Char.isDigit with
      | '.' :: cs2 => cs2.dropWhile pySpaceB
      | _ => l
    else l
  | [] => l

/-- `max(1, len(clean_text) / 20)` — estimated wrapped line count of one
list item. -/
def visualLines (item : List Char) : ℚ :=
  max 1 ((cleanItem item).length / 20)

/-- Height of a `'list'` block in `_create_block`:
`total_visual_lines * 24 + len(items) * 8 + 10`. -/
def listHeight (content : List Char) : ℚ :=
  let items := pySplitNl content
  ((items.map visualLines).sum) * 24 + (items.length : ℚ) * 8 + 10

/-- The url extracted by `re.search(r'!\[.*?\]\((.*?)\)', content)`:
the text between the first `](` that follows the first `![` and the first
`)` after that. -/
def extractUrl (content : List Char) : Option (List Char) :=
  match findSubIdx ['!', '['] content 0 with
  | none => none
  | some i =>
    match findSubIdx [']', '('] content (i + 2) with
    | none => none
    | some j =>
      match findSubIdx [')'] content (j + 2) with
      | none => none
      | some m => some ((content.drop (j + 2)).take (m - (j + 2)))

/-- `_get_image_height`: on successful resolution of the url to an aspect
ratio `ar = width/height`, `min(render_width(325) / ar, 520)`; on any
failure (`res url = none`), the fallback `300`. -/
def getImageHeight (res : List Char → Option ℚ) (url : List Char) : ℚ :=
  match res url with
  | none => 300
  | some ar => min (325 / ar) 520

/-- `_create_block`: tag, content and estimated height of one block.
Follows the source branch for branch; for `'p'`/`'h1'` input tags the
html-formatting step may early-return a `'blockquote'` block, and otherwise
the height chain ends in the `'card' in html` test (abstracted by `mc`)
before the default paragraph formula. -/
def createBlock (res : List Char → Option ℚ) (mc : List Char → Bool)
    (t : BType) (content : List Char) : Block :=
  match t with
  | .h2 => ⟨.h2, content, 60⟩
  | .h3 => ⟨.h3, content, 50⟩
  | .list => ⟨.list, content, listHeight content⟩
  | .code => ⟨.code, content, ((pySplitNl content).length : ℚ) * 30 + 30⟩
  | .image =>
    ⟨.image, content,
      match extractUrl content with
      | some url => getImageHeight res url
      | none => 300⟩
  | _ =>
    if startsWithL ['>'] content then
      ⟨.blockquote, content, (content.length : ℚ) / 18 * 24 + 50⟩
    else if mc content then
      ⟨t, content, (content.length : ℚ) / 20 * 24 + 80⟩
    else
      ⟨t, content, (content.length : ℚ) / 22 * 24 + 20⟩

/-! ## Tokenizer (`_tokenize`) -/

/-- The mutable scan state of `_tokenize`: emitted blocks, the accumulating
line buffer `current_block` and the tag `current_type`. -/
structure TState where
  blocks : List Block
  cur : List (List Char)
  ctype : BType
  deriving Repr

/-- The nested `flush_block()`: if the buffer is non-empty, join and strip
it, and emit a block when the stripped content is non-empty. -/
def flushT (res : List Char → Option ℚ) (mc : List Char → Bool) (st : TState) : TState :=
  match st.cur with
  | [] => st
  | _ =>
    let content := pyStrip (joinNl st.cur)
    { st with
      blocks := if content.isEmpty then st.blocks
                else st.blocks ++ [createBlock res mc st.ctype content],
      cur := [] }

/-- `re.match(r'^\d+\.', s)`: one or more digits then a dot, at the start. -/
def isNumDot (s : List Char) : Bool :=
  !(s.takeWhile Char.isDigit).isEmpty && startsWithL ['.'] (s.drop (s.takeWhile Char.isDigit).length)

/-- `re.match(r'!\[.*?\]\(.*?\)', s)`: anchored image-reference test. -/
def isImageLine (s : List Char) : Bool :=
  startsWithL ['!', '['] s &&
    (match findSubIdx [']', '('] s 2 with
     | none => false
     | some j => (findSubIdx [')'] s (j + 2)).isSome)

/-- One iteration of the `for line in lines` loop of `_tokenize`. -/
def stepT (res : List Char → Option ℚ) (mc : List Char → Bool)
    (st : TState) (raw : List Char) : TState :=
  let line := pyRstrip raw
  let stripped := pyStrip line
  if startsWithL ['`', '`', '`'] stripped then
    if st.ctype = .code then
      let st := { st with cur := st.cur ++ [line] }
      let st := flushT res mc st
      { st with ctype := .p }
    else
      let st := flushT res mc st
      { st with ctype := .code, cur := st.cur ++ [line] }
  else if st.ctype = .code then
    { st with cur := st.cur ++ [line] }
  else if startsWithL ['#'] line then
    let st := flushT res mc st
    let level := (line.takeWhile (fun c => c ≠ ' ')).length
    let t := if level = 1 then BType.h1 else if level = 2 then BType.h2 else BType.h3
    let st := { st with ctype := t, cur := st.cur ++ [pyStrip (line.dropWhile (· == '#'))] }
    let st := flushT res mc st
    { st with ctype := .p }
  else if startsWithL ['-', ' '] stripped || startsWithL ['*', ' '] stripped || isNumDot stripped then
    let st := if st.ctype ≠ .list then { (flushT res mc st) with ctype := .list } else st
    { st with cur := st.cur ++ [line] }
  else if isImageLine stripped then
    let st := flushT res mc st
    let st := { st with ctype := .image, cur := st.cur ++ [stripped] }
    let st := flushT res mc st
    { st with ctype := .p }
  else if stripped.isEmpty then
    let st := flushT res mc st
    { st with ctype := .p }
  else
    { st with cur := st.cur ++ [line] }

/-- `_tokenize`: strip the text, scan its lines, and flush the remainder. -/
def tokenize (res : List Char → Option ℚ) (mc : List Char → Bool)
    (text : List Char) : List Block :=
  (flushT res mc ((pySplitNl (pyStrip text)).foldl (stepT res mc) ⟨[], [], .p⟩)).blocks

/-! ## List splitter (`_try_split_list`) -/

/-- Per-item height used by `_try_split_list`:
`max(1, len(clean_text)/20) * 24 + 8`. -/
def itemH (item : List Char) : ℚ := visualLines item * 24 + 8

/-- `len(item) - len(item.lstrip())`: indentation width of a list line. -/
def indentOf (l : List Char) : Nat := l.length - (pyLstrip l).length

/-- The `for i, h in enumerate(item_heights)` accumulation loop: `cur` is
`current_h`, `i` the next index, `si` the `split_index` so far (`none`
standing for Python's `-1`). -/
def fitGo (avail : ℚ) : List ℚ → ℚ → Nat → Option Nat → Option Nat
  | [], _, _, si => si
  | h :: t, cur, i, si =>
    if cur + h > avail then si
    else fitGo avail t (cur + h) (i + 1) (some i)

/-- The split index computed by the accumulation loop of `_try_split_list`,
starting from `base_padding = 10`. -/
def fitIdx (hs : List ℚ) (avail : ℚ) : Option Nat :=
  fitGo avail hs 10 0 none

/-- The `while temp_index >= 0` backtracking scan of the sticky-parent rule:
walking down from `t`, the first line with indentation `< currInd` is the
parent; it is excluded (`t - 1`) unless it is item 0, in which case the
original index `k` is kept, as it also is when the scan runs out. -/
def stickyGo (items : List (List Char)) (currInd : Nat) (k : Nat) : Nat → Nat
  | 0 => k
  | t + 1 =>
    if indentOf (items.getD (t + 1) []) < currInd then t
    else stickyGo items currInd k t

/-- The sticky-parent adjustment applied to `split_index` (only when
`split_index > 0`). -/
def stickyAdjust (items : List (List Char)) (k : Nat) : Nat :=
  if 0 < k then stickyGo items (indentOf (items.getD k [])) k k else k

/-- Longest common first-segment of two margins (`textwrap.dedent`'s
pairwise reconciliation of indents). -/
def commonPre : List Char → List Char → List Char
  | [], _ => []
  | _, [] => []
  | a :: as_, b :: bs => if a = b then a :: commonPre as_ bs else []

/-- `textwrap.dedent` on a list of lines: whitespace-only lines are
blanked, the common space/tab margin of the remaining lines is computed,
and removed from every line that carries it. -/
def dedentCore (ls : List (List Char)) : List (List Char) :=
  let tabSpace : Char → Bool := fun c => c == ' ' || c == '\t'
  let blanked := ls.map (fun l => if !l.isEmpty && l.all tabSpace then [] else l)
  let margins := blanked.filterMap
    (fun l => if l.isEmpty then none else some (l.takeWhile tabSpace))
  let margin := match margins with
    | [] => []
    | m :: ms => ms.foldl commonPre m
  blanked.map (fun l => if startsWithL margin l then l.drop margin.length else l)

/-- `textwrap.dedent` on a text. -/
def pyDedent (t : List Char) : List Char := joinNl (dedentCore (pySplitNl t))

/-- `_try_split_list`: Python's `(None, None)` is `none`, a successful
split is `some (block1, block2)`. -/
def trySplitList (res : List Char → Option ℚ) (mc : List Char → Bool)
    (block : Block) (avail : ℚ) : Option (Block × Block) :=
  let items := pySplitNl block.content
  let hs := items.map itemH
  match fitIdx hs avail with
  | none => none
  | some k0 =>
    let k := stickyAdjust items k0
    let part1 := items.take (k + 1)
    let part2 := items.drop (k + 1)
    if part1.isEmpty || part2.isEmpty then none
    else some (createBlock res mc .list (joinNl part1),
               createBlock res mc .list (pyDedent (joinNl part2)))

/-! ## Paginator (`_paginate`) and slide assembly -/

/-- Python `f"{n:02d}"` for a nonnegative index. -/
def pad2 (n : Nat) : String := if n < 10 then "0" ++ toString n else toString n

/-- The footer written by the final renumbering pass:
`f"SLIDE {i+1:02d}/{total:02d}"`. -/
def footerFmt (i total : Nat) : String := "SLIDE " ++ pad2 i ++ "/" ++ pad2 total

/-- One output slide.  The source stores each placed block's `'html'`
string in `'content'`; the embedding keeps the placed blocks themselves
(`blocks`), which carries strictly more information and is what the claims
quantify over.  Fields that only ever hold fixed decorative strings
(`header_left`, `header_right`, `footer_left`, `cover_subtitle`,
`tagline`) are omitted. -/
structure Slide where
  is_cover : Bool
  cover_title : List Char
  footer_right : String
  blocks : List Block
  deriving DecidableEq, Repr, Inhabited

/-- `_finalize_slide`. -/
def finalizeSlide (content : List Block) (idx : Nat) : Slide :=
  ⟨false, [], "SLIDE " ++ pad2 idx, content⟩

/-- The cover slide built from the first `'h1'` block. -/
def coverSlide (c : Block) : Slide := ⟨true, c.content, "SLIDE 01", []⟩

/-- The loop state of `_paginate`: `current_slide_content` (as blocks),
`current_height`, `slide_index`. -/
structure PState where
  cur : List Block
  h : ℚ
  idx : Nat
  deriving Repr

/-- Header test used by the orphan protection: `block['type'] in ['h2','h3']`. -/
def isHdr (b : Block) : Bool := b.btype == .h2 || b.btype == .h3

/-- The orphan-header-protection trigger: a `'h2'`/`'h3'` block, a
non-empty queue whose head together with the header would overflow, and a
non-empty current slide. -/
def protectB (b : Block) (nxt : Option Block) (st : PState) : Bool :=
  isHdr b &&
    (match nxt with
     | some n => decide (st.h + b.height + n.height > 420)
     | none => false) &&
  !st.cur.isEmpty

/-- The general overflow trigger: `current_height + block['height'] >
self.MAX_HEIGHT and current_slide_content`. -/
def overB (b : Block) (st : PState) : Bool :=
  decide (st.h + b.height > 420) && !st.cur.isEmpty

/-- One iteration of the `while block_queue` loop: possibly an
orphan-protection flush, possibly an overflow flush, then the block is
placed.  Returns the slides emitted during the iteration and the new
state. -/
def pstep (b : Block) (nxt : Option Block) (st : PState) : List Slide × PState :=
  let s1 : List Slide × PState :=
    if protectB b nxt st then ([finalizeSlide st.cur st.idx], ⟨[], 0, st.idx + 1⟩)
    else ([], st)
  let s2 : List Slide × PState :=
    if overB b s1.2 then (s1.1 ++ [finalizeSlide s1.2.cur s1.2.idx], ⟨[], 0, s1.2.idx + 1⟩)
    else s1
  (s2.1, ⟨s2.2.cur ++ [b], s2.2.h + b.height, s2.2.idx⟩)

/-- The pagination sweep over the block queue, including the final
`if current_slide_content` flush. -/
def ploop : List Block → PState → List Slide
  | [], st => if st.cur.isEmpty then [] else [finalizeSlide st.cur st.idx]
  | b :: rest, st => (pstep b rest.head? st).1 ++ ploop rest (pstep b rest.head? st).2

/-- The final renumbering pass (`for i, slide in enumerate(slides)`),
carried out from position `i` with the fixed total. -/
def renumber (total : Nat) : Nat → List Slide → List Slide
  | _, [] => []
  | i, s :: t => { s with footer_right := footerFmt (i + 1) total } :: renumber total (i + 1) t

/-- `_paginate`: cover extraction, the sweep, and footer renumbering. -/
def paginate (blocks : List Block) : List Slide :=
  let cover := blocks.find? (fun b => b.btype == .h1)
  let flow := blocks.filter (fun b => !(b.btype == .h1))
  let base := match cover with
    | some c => coverSlide c :: ploop flow ⟨[], 0, 2⟩
    | none => ploop flow ⟨[], 0, 1⟩
  renumber base.length 0 base

/-- `SmartParser.parse`. -/
def parse (res : List Char → Option ℚ) (mc : List Char → Bool)
    (text : List Char) : List Slide :=
  paginate (tokenize res mc text)

/-- Sum of the heights of a list of blocks (the value `current_height`
tracks for the blocks of the open slide). -/
def sumH (l : List Block) : ℚ := (l.map Block.height).sum

/-- Concatenation of the block sequences of a list of slides, in order. -/
def flatBlocks : List Slide → List Block
  | [] => []
  | s :: t => s.blocks ++ flatBlocks t

/-- A trivially failing image resolver and a trivially false
`'card' in html` oracle, used to instantiate concrete runs. -/
def noRes : List Char → Option ℚ := fun _ => none

/-- See `noRes`. -/
def noCard : List Char → Bool := fun _ => false

/-! ## Helper lemmas -/

lemma dropWhile_idem (p : Char → Bool) (l : List Char) :
    (l.dropWhile p).dropWhile p = l.dropWhile p := by
  induction l with
  | nil => rfl
  | cons a t ih =>
    by_cases h : p a
    · simp [List.dropWhile, h, ih]
    · simp [List.dropWhile, h]

lemma pyRstrip_all_space (l : List Char) (h : ∀ c ∈ l, pySpaceB c = true) :
    pyRstrip l = [] := by
  unfold pyRstrip
  have : l.reverse.dropWhile pySpaceB = [] := by
    rw [List.dropWhile_eq_nil_iff]
    intro x hx
    exact h x (List.mem_reverse.mp hx)
  rw [this]
  rfl

lemma pyStrip_all_space (l : List Char) (h : ∀ c ∈ l, pySpaceB c = true) :
    pyStrip l = [] := by
  unfold pyStrip
  rw [pyRstrip_all_space l h]
  rfl

lemma renumber_length (total : Nat) : ∀ (i : Nat) (ss : List Slide),
    (renumber total i ss).length = ss.length := by
  intro i ss
  induction ss generalizing i with
  | nil => rfl
  | cons s t ih => simp [renumber, ih]

lemma renumber_get (total : Nat) : ∀ (ss : List Slide) (i j : Nat) (h : j < ss.length)
    (h' : j < (renumber total i ss).length),
    (renumber total i ss).get ⟨j, h'⟩ =
      { ss.get ⟨j, h⟩ with footer_right := footerFmt (i + j + 1) total } := by
  intro ss
  induction ss with
  | nil => intro i j h; exact absurd h (Nat.not_lt_zero j)
  | cons s t ih =>
    intro i j h h'
    cases j with
    | zero => rfl
    | succ j =>
      have hj : j < t.length := Nat.lt_of_succ_lt_succ h
      have hj' : j < (renumber total (i + 1) t).length := by
        rw [renumber_length]; exact hj
      show (renumber total (i + 1) t).get ⟨j, hj'⟩ = _
      rw [ih (i + 1) j hj hj']
      have : i + 1 + j + 1 = i + (j + 1) + 1 := by omega
      rw [this]
      rfl

lemma renumber_mem (total : Nat) : ∀ (i : Nat) (ss : List Slide) (s : Slide),
    s ∈ renumber total i ss →
    ∃ s0 ∈ ss, s.is_cover = s0.is_cover ∧ s.cover_title = s0.cover_title ∧
      s.blocks = s0.blocks := by
  intro i ss
  induction ss generalizing i with
  | nil => intro s hs; exact absurd hs (by simp [renumber])
  | cons a t ih =>
    intro s hs
    rw [renumber] at hs
    rcases List.mem_cons.mp hs with h | h
    · exact ⟨a, List.mem_cons_self a t, by rw [h], by rw [h], by rw [h]⟩
    · obtain ⟨s0, hs0, hp⟩ := ih (i + 1) s h
      exact ⟨s0, List.mem_cons_of_mem a hs0, hp⟩

/-- Footer of every slide of `paginate bs`, as a function of its position
and the total count. -/
lemma paginate_footer (bs : List Block) (j : Nat) (h : j < (paginate bs).length) :
    ((paginate bs).get ⟨j, h⟩).footer_right = footerFmt (j + 1) (paginate bs).length := by
  unfold paginate at *
  set base : List Slide := (match bs.find? (fun b => b.btype == .h1) with
    | some c => coverSlide c :: ploop (bs.filter (fun b => !(b.btype == .h1))) ⟨[], 0, 2⟩
    | none => ploop (bs.filter (fun b => !(b.btype == .h1))) ⟨[], 0, 1⟩) with hbase
  have hlen : (renumber base.length 0 base).length = base.length := renumber_length _ _ _
  have hj : j < base.length := by rw [← hlen]; exact h
  rw [renumber_get base.length base 0 j hj h, hlen]
  simp

/-! ## Claim C4 — footer renumbering -/

/-- C4: after the final renumbering pass, the `footer_right` of the slide
at 1-based position `i` of the paginator's output (cover slide included)
is `"SLIDE i/N"` (two-digit-padded), where `N` is the length of the output
sequence. -/
theorem c4_footer_invariant (res : List Char → Option ℚ) (mc : List Char → Bool)
    (text : List Char) (j : Nat) (h : j < (parse res mc text).length) :
    ((parse res mc text).get ⟨j, h⟩).footer_right =
      footerFmt (j + 1) (parse res mc text).length := by
  unfold parse at *
  exact paginate_footer _ j h

/-- Witness for C4 at the concrete input `"hi"`: a single slide whose
footer reads `"SLIDE 01/01"`. -/
theorem c4_footer_invariant_witness :
    ((parse noRes noCard ("hi".data)).get
        ⟨0, by with_unfolding_all decide⟩).footer_right =
      footerFmt 1 (parse noRes noCard ("hi".data)).length :=
  c4_footer_invariant noRes noCard ("hi".data) 0 (by with_unfolding_all decide)

/-! ## Claim C6 — image height fallback -/

/-- C6: the height estimator never fails on an image block.  If the url
resolves to an image of aspect ratio `ar`, the height is the render width
`325` divided by `ar`, clamped to at most `520`; on any resolution failure
(`res url = none`) the fixed fallback `300` is used, and `_create_block`
also uses `300` when no url can be extracted from the block content at
all.  The embedding is a total function, so pagination always proceeds. -/
theorem c6_image_fallback (res : List Char → Option ℚ) (mc : List Char → Bool) :
    (∀ url, res url = none → getImageHeight res url = 300) ∧
    (∀ url ar, res url = some ar → getImageHeight res url = min (325 / ar) 520) ∧
    (∀ content, (createBlock res mc .image content).height =
      match extractUrl content with
      | some url => getImageHeight res url
      | none => 300) := by
  refine ⟨fun url h => ?_, fun url ar h => ?_, fun content => ?_⟩
  · simp [getImageHeight, h]
  · simp [getImageHeight, h]
  · rfl

/-- Witness for C6: a failing resolver yields 300, a resolver returning
aspect ratio 1/2 yields `min 650 520 = 520`, and an image block whose
content holds no parsable url gets height 300. -/
theorem c6_image_fallback_witness :
    getImageHeight noRes ("u".data) = 300 ∧
    getImageHeight (fun _ => some (1/2)) ("u".data) = min (325 / (1/2)) 520 ∧
    (createBlock noRes noCard .image ("oops".data)).height = 300 := by
  exact ⟨(c6_image_fallback noRes noCard).1 _ rfl,
         (c6_image_fallback (fun _ => some (1/2)) noCard).2.1 _ (1/2) rfl,
         ((c6_image_fallback noRes noCard).2.2 ("oops".data)).trans rfl⟩

/-! ## Claim C10 — whitespace-only input -/

/-- C10: an input consisting only of whitespace characters (the empty
string included) parses to the empty slide sequence: no cover slide and no
content slide is produced. -/
theorem c10_whitespace_empty (res : List Char → Option ℚ) (mc : List Char → Bool)
    (text : List Char) (hws : ∀ c ∈ text, pySpaceB c = true) :
    parse res mc text = [] := by
  have h1 : pyStrip text = [] := pyStrip_all_space text hws
  simp only [parse, tokenize, h1]
  rfl

/-- Witness for C10 at two concrete inputs: the empty text and a
whitespace-only text. -/
theorem c10_whitespace_empty_witness :
    parse noRes noCard ("".data) = [] ∧ parse noRes noCard (" \t\n ".data) = [] :=
  ⟨c10_whitespace_empty noRes noCard _ (by decide),
   c10_whitespace_empty noRes noCard _ (by decide)⟩

/-! ## Strip idempotence -/

lemma dropWhile_head?_false (p : Char → Bool) (l : List Char) (c : Char)
    (h : (l.dropWhile p).head? = some c) : p c = false := by
  induction l with
  | nil => simp at h
  | cons a t ih =>
    by_cases ha : p a
    · rw [List.dropWhile_cons, if_pos ha] at h
      exact ih h
    · rw [List.dropWhile_cons, if_neg ha] at h
      simp at h
      rw [← h]
      simpa using ha

lemma pyRstrip_of_getLast? (m : List Char) (c : Char)
    (h : m.getLast? = some c) (hc : pySpaceB c = false) : pyRstrip m = m := by
  unfold pyRstrip
  have hrev : m.reverse.head? = some c := by rw [List.head?_reverse]; exact h
  cases hm : m.reverse with
  | nil => rw [hm] at hrev; simp at hrev
  | cons a t =>
    rw [hm] at hrev
    simp at hrev
    rw [List.dropWhile_cons, hrev, hc]
    have hmm : m = t.reverse ++ [a] := by
      have := congrArg List.reverse hm
      simpa using this
    rw [if_neg (by simp), hmm, hrev]
    simp

lemma pyLstrip_idem (l : List Char) : pyLstrip (pyLstrip l) = pyLstrip l :=
  dropWhile_idem pySpaceB l

lemma pyStrip_getLast?_false (l : List Char) (c : Char)
    (h : (pyStrip l).getLast? = some c) : pySpaceB c = false := by
  have hy : (pyStrip l).getLast? = (List.dropWhile pySpaceB l.reverse).head? := by
    show (List.dropWhile pySpaceB (pyRstrip l)).getLast? = _
    have hne : pyStrip l ≠ [] := by
      intro hnil
      rw [hnil] at h
      simp at h
    have hsplit : List.takeWhile pySpaceB (pyRstrip l) ++
        List.dropWhile pySpaceB (pyRstrip l) = pyRstrip l := by
      simp
    rw [show (List.dropWhile pySpaceB (pyRstrip l)).getLast?
          = (pyRstrip l).getLast? from by
        conv_rhs => rw [← hsplit]
        exact (List.getLast?_append_of_ne_nil _ hne).symm]
    show ((List.dropWhile pySpaceB l.reverse).reverse).getLast? = _
    rw [← List.head?_reverse, List.reverse_reverse]
  rw [hy] at h
  exact dropWhile_head?_false pySpaceB l.reverse c h

lemma pyRstrip_pyStrip (l : List Char) : pyRstrip (pyStrip l) = pyStrip l := by
  cases h : (pyStrip l).getLast? with
  | none =>
    have : pyStrip l = [] := by
      cases hm : pyStrip l with
      | nil => rfl
      | cons a t => rw [hm] at h; simp [List.getLast?_eq_getLast] at h
    rw [this]; rfl
  | some c =>
    exact pyRstrip_of_getLast? _ c h (pyStrip_getLast?_false l c h)

lemma pyStrip_idem (l : List Char) : pyStrip (pyStrip l) = pyStrip l := by
  show pyLstrip (pyRstrip (pyStrip l)) = pyStrip l
  rw [pyRstrip_pyStrip]
  show pyLstrip (pyLstrip (pyRstrip l)) = pyStrip l
  rw [pyLstrip_idem]
  rfl

/-! ## Tokenizer step lemmas -/

lemma flushT_cur (res : List Char → Option ℚ) (mc : List Char → Bool) (st : TState) :
    (flushT res mc st).cur = [] := by
  obtain ⟨bs, cur, ct⟩ := st
  unfold flushT
  cases cur <;> rfl

lemma flushT_ctype (res : List Char → Option ℚ) (mc : List Char → Bool) (st : TState) :
    (flushT res mc st).ctype = st.ctype := by
  obtain ⟨bs, cur, ct⟩ := st
  unfold flushT
  cases cur <;> rfl

lemma pyRstrip_cons_not_space (a : Char) (t : List Char) (ha : pySpaceB a = false) :
    pyRstrip (a :: t) = a :: pyRstrip t := by
  unfold pyRstrip
  rw [List.reverse_cons, List.dropWhile_append]
  by_cases h : (t.reverse.dropWhile pySpaceB).isEmpty
  · rw [if_pos h]
    have : t.reverse.dropWhile pySpaceB = [] := by
      cases hh : t.reverse.dropWhile pySpaceB
      · rfl
      · rw [hh] at h; simp at h
    rw [this]
    simp [List.dropWhile, ha]
  · rw [if_neg h]
    rw [List.reverse_append]
    rfl

lemma pyStrip_cons_not_space (a : Char) (t : List Char) (ha : pySpaceB a = false) :
    pyStrip (a :: t) = a :: pyRstrip t := by
  unfold pyStrip
  rw [pyRstrip_cons_not_space a t ha]
  unfold pyLstrip
  rw [List.dropWhile_cons, ha]
  simp

lemma joinNl_singleton (l : List Char) : joinNl [l] = l := rfl

lemma mem_of_mem_pyStrip (c : Char) (l : List Char) (h : c ∈ pyStrip l) : c ∈ l := by
  unfold pyStrip pyLstrip pyRstrip at h
  have h1 := (List.dropWhile_sublist pySpaceB (l := (l.reverse.dropWhile pySpaceB).reverse)).mem h
  rw [List.mem_reverse] at h1
  have h2 := (List.dropWhile_sublist pySpaceB (l := l.reverse)).mem h1
  rwa [List.mem_reverse] at h2

lemma pyStrip_eq_nil_imp (l : List Char) (h : pyStrip l = []) :
    ∀ c ∈ l, pySpaceB c = true := by
  intro c hc
  unfold pyStrip pyLstrip at h
  have hall : ∀ x ∈ pyRstrip l, pySpaceB x = true := by
    intro x hx
    exact List.dropWhile_eq_nil_iff.mp h x hx
  have hrevsplit : l.reverse.takeWhile pySpaceB ++ l.reverse.dropWhile pySpaceB = l.reverse := by
    simp
  have hc' : c ∈ l.reverse := List.mem_reverse.mpr hc
  rw [← hrevsplit] at hc'
  rcases List.mem_append.mp hc' with h1 | h1
  · exact List.mem_takeWhile_imp h1
  · apply hall
    unfold pyRstrip
    rwa [List.mem_reverse]

lemma mem_joinNl (c : Char) (s : List Char) : ∀ (ls : List (List Char)),
    s ∈ ls → c ∈ s → c ∈ joinNl ls := by
  intro ls
  induction ls with
  | nil => intro h; exact absurd h (by simp)
  | cons a t ih =>
    intro hs hc
    cases t with
    | nil =>
      rw [List.mem_singleton] at hs
      rw [joinNl_singleton, ← hs]
      exact hc
    | cons b u =>
      show c ∈ a ++ '\n' :: joinNl (b :: u)
      rcases List.mem_cons.mp hs with h1 | h1
      · rw [h1] at hc
        exact List.mem_append.mpr (Or.inl hc)
      · exact List.mem_append.mpr (Or.inr (List.mem_cons_of_mem _ (ih h1 hc)))

lemma startsWith_backtick_mem (s : List Char)
    (h : startsWithL ['`', '`', '`'] s = true) : '`' ∈ s := by
  cases s with
  | nil => simp [startsWithL] at h
  | cons a t =>
    rw [startsWithL] at h
    have : '`' = a := by
      by_contra hne
      rw [beq_eq_false_iff_ne.mpr hne] at h
      simp at h
    rw [← this]
    exact List.mem_cons_self _ _

lemma flushT_cons (res : List Char → Option ℚ) (mc : List Char → Bool)
    (bs : List Block) (cur : List (List Char)) (ct : BType) (h : cur ≠ []) :
    flushT res mc ⟨bs, cur, ct⟩ =
      ⟨if (pyStrip (joinNl cur)).isEmpty then bs
        else bs ++ [createBlock res mc ct (pyStrip (joinNl cur))], [], ct⟩ := by
  cases cur with
  | nil => exact absurd rfl h
  | cons a u => rfl

/-! ## Claim C5 — heading lines -/

/-- C5 (amended): on a line that (after right-stripping) begins with `#`,
outside a code fence, the tokenizer flushes the pending block, classifies
the line by the length of its first space-delimited token
(`len(line.split(' ')[0])`: `1` → Heading1, `2` → Heading2, anything else
→ Heading3 — this equals the run length of the leading `#` characters
exactly when the marker run is followed by a space or ends the line),
strips the leading `#` markers and surrounding whitespace, emits a
single-line heading Block when and only when the remaining content is
non-empty, and resets the state to `Paragraph` with an empty buffer. -/
theorem c5_heading_classification (res : List Char → Option ℚ) (mc : List Char → Bool)
    (st : TState) (raw : List Char)
    (hhash : startsWithL ['#'] (pyRstrip raw) = true)
    (hcode : st.ctype ≠ .code) :
    stepT res mc st raw =
      { blocks :=
          (flushT res mc st).blocks ++
            (if (pyStrip ((pyRstrip raw).dropWhile (· == '#'))).isEmpty then []
             else [createBlock res mc
                (if ((pyRstrip raw).takeWhile (fun c => c ≠ ' ')).length = 1 then BType.h1
                 else if ((pyRstrip raw).takeWhile (fun c => c ≠ ' ')).length = 2 then BType.h2
                 else BType.h3)
                (pyStrip ((pyRstrip raw).dropWhile (· == '#')))]),
        cur := [],
        ctype := .p } := by
  obtain ⟨t, ht⟩ : ∃ t, pyRstrip raw = '#' :: t := by
    cases h : pyRstrip raw with
    | nil => rw [h] at hhash; simp [startsWithL] at hhash
    | cons c u =>
      rw [h, startsWithL] at hhash
      have : '#' = c := by
        by_contra hne
        rw [beq_eq_false_iff_ne.mpr hne] at hhash
        simp at hhash
      exact ⟨u, by rw [← this]⟩
  have hstrip : pyStrip (pyRstrip raw) = '#' :: pyRstrip t := by
    rw [ht]
    exact pyStrip_cons_not_space '#' t (by decide)
  have hfence : startsWithL ['`', '`', '`'] (pyStrip (pyRstrip raw)) = false := by
    rw [hstrip, startsWithL]
    simp
  show stepT res mc st raw = _
  simp only [stepT]
  rw [hfence]
  simp only [Bool.false_eq_true, if_false, if_neg hcode, ht, startsWithL]
  rw [if_pos (by simp)]
  have hcur : (flushT res mc st).cur = [] := flushT_cur res mc st
  rw [hcur, List.nil_append]
  rw [flushT_cons res mc _ _ _ (by simp)]
  rw [joinNl_singleton, pyStrip_idem]
  by_cases hsp : pyStrip (List.dropWhile (fun x => x == '#') t) = [] <;>
    simp [List.dropWhile_cons, hsp]

/-- Counterexample to C5 as stated: the line `"#Title"` has a leading-`#`
run of length 1, so the claim demands a Heading1 block; the code computes
`len("#Title".split(' ')[0]) = 6` and emits a Heading3 block instead. -/
theorem c5_counterexample :
    (tokenize noRes noCard ("#Title".data)).map Block.btype = [BType.h3] ∧
    (("#Title".data).takeWhile (· == '#')).length = 1 := by
  constructor
  · with_unfolding_all rfl
  · decide

/-- Witness for C5 (amended) at the concrete line `"## Hi"` in the initial
state: one Heading2 block with content `"Hi"` is emitted. -/
theorem c5_heading_classification_witness :
    stepT noRes noCard ⟨[], [], .p⟩ ("## Hi".data) =
      { blocks := [createBlock noRes noCard .h2 ("Hi".data)], cur := [], ctype := .p } := by
  have h := c5_heading_classification noRes noCard ⟨[], [], .p⟩ ("## Hi".data)
    (by decide) (by decide)
  rw [h]
  with_unfolding_all rfl

/-! ## Claim C9 — code fences capture everything -/

/-- C9: while the tokenizer is in code-capture state, a line whose
stripped form does not start with a fence marker — in particular any line
beginning with `#` or a list marker — is appended verbatim (modulo the
right-strip applied to every input line) to the accumulating buffer and
emits nothing; the closing fence line flushes exactly one `code` Block
containing all the accumulated lines (fences included, joined and
stripped), and resets the state to `Paragraph`. -/
theorem c9_fence_verbatim (res : List Char → Option ℚ) (mc : List Char → Bool)
    (st : TState) (raw : List Char) (hc : st.ctype = .code) :
    (startsWithL ['`', '`', '`'] (pyStrip (pyRstrip raw)) = false →
      stepT res mc st raw = { st with cur := st.cur ++ [pyRstrip raw] }) ∧
    (startsWithL ['`', '`', '`'] (pyStrip (pyRstrip raw)) = true →
      stepT res mc st raw =
        ⟨st.blocks ++
           [createBlock res mc .code (pyStrip (joinNl (st.cur ++ [pyRstrip raw])))],
         [], .p⟩) := by
  constructor
  · intro hfence
    simp only [stepT]
    rw [hfence]
    simp only [Bool.false_eq_true, if_false, if_pos hc]
  · intro hfence
    have hmem : '`' ∈ joinNl (st.cur ++ [pyRstrip raw]) := by
      apply mem_joinNl '`' (pyRstrip raw)
      · exact List.mem_append.mpr (Or.inr (List.mem_singleton.mpr rfl))
      · exact mem_of_mem_pyStrip _ _ (startsWith_backtick_mem _ hfence)
    have hne : (pyStrip (joinNl (st.cur ++ [pyRstrip raw]))).isEmpty = false := by
      have hnn : pyStrip (joinNl (st.cur ++ [pyRstrip raw])) ≠ [] := by
        intro hnil
        have := pyStrip_eq_nil_imp _ hnil '`' hmem
        simp [pySpaceB] at this
      cases hmm : pyStrip (joinNl (st.cur ++ [pyRstrip raw])) with
      | nil => exact absurd hmm hnn
      | cons a u => rfl
    simp only [stepT]
    rw [hfence]
    simp only [if_true, if_pos hc]
    rw [show ({ blocks := st.blocks, cur := st.cur ++ [pyRstrip raw], ctype := st.ctype } : TState)
          = ⟨st.blocks, st.cur ++ [pyRstrip raw], st.ctype⟩ from rfl]
    rw [flushT_cons res mc _ _ _ (by simp)]
    rw [hne, hc]
    simp

/-- Witness for C9 at a concrete state: inside a fence, the line `"# hi"`
is captured rather than parsed as a heading, and the closing fence
`"```"` flushes the single accumulated code block. -/
theorem c9_fence_verbatim_witness :
    stepT noRes noCard ⟨[], [['`', '`', '`']], .code⟩ ("# hi".data) =
      { blocks := [], cur := [['`', '`', '`'], "# hi".data], ctype := .code } ∧
    stepT noRes noCard ⟨[], [['`', '`', '`'], "# hi".data], .code⟩ ("```".data) =
      ⟨[createBlock noRes noCard .code
          (pyStrip (joinNl ([['`', '`', '`'], "# hi".data] ++ ["```".data])))], [], .p⟩ := by
  constructor
  · have h := (c9_fence_verbatim noRes noCard ⟨[], [['`', '`', '`']], .code⟩ ("# hi".data) rfl).1
      (by decide)
    rw [h]
    with_unfolding_all rfl
  · exact (c9_fence_verbatim noRes noCard ⟨[], [['`', '`', '`'], "# hi".data], .code⟩
      ("```".data) rfl).2 (by decide)

/-! ## Paginator lemmas -/

lemma sumH_nil : sumH [] = 0 := rfl

lemma sumH_concat (l : List Block) (b : Block) : sumH (l ++ [b]) = sumH l + b.height := by
  simp [sumH]

lemma sumH_singleton (b : Block) : sumH [b] = b.height := by
  simp [sumH]

lemma flatBlocks_append (l1 l2 : List Slide) :
    flatBlocks (l1 ++ l2) = flatBlocks l1 ++ flatBlocks l2 := by
  induction l1 with
  | nil => rfl
  | cons s t ih => simp [flatBlocks, ih]

lemma flatBlocks_mem (b : Block) (s : Slide) : ∀ (L : List Slide),
    s ∈ L → b ∈ s.blocks → b ∈ flatBlocks L := by
  intro L
  induction L with
  | nil => intro h; exact absurd h (by simp)
  | cons a t ih =>
    intro hs hb
    rcases List.mem_cons.mp hs with h1 | h1
    · rw [h1] at hb
      exact List.mem_append.mpr (Or.inl hb)
    · exact List.mem_append.mpr (Or.inr (ih h1 hb))

lemma pstep_protect (b : Block) (nxt : Option Block) (st : PState)
    (h : protectB b nxt st = true) :
    pstep b nxt st = ([finalizeSlide st.cur st.idx], ⟨[b], b.height, st.idx + 1⟩) := by
  simp [pstep, h, overB]

lemma pstep_over (b : Block) (nxt : Option Block) (st : PState)
    (h1 : protectB b nxt st = false) (h2 : overB b st = true) :
    pstep b nxt st = ([finalizeSlide st.cur st.idx], ⟨[b], b.height, st.idx + 1⟩) := by
  simp [pstep, h1, h2]

lemma pstep_place (b : Block) (nxt : Option Block) (st : PState)
    (h1 : protectB b nxt st = false) (h2 : overB b st = false) :
    pstep b nxt st = ([], ⟨st.cur ++ [b], st.h + b.height, st.idx⟩) := by
  simp [pstep, h1, h2]

lemma protectB_cur_ne (b : Block) (nxt : Option Block) (st : PState)
    (h : protectB b nxt st = true) : st.cur ≠ [] := by
  have := (Bool.and_eq_true _ _).mp h
  rcases this with ⟨_, h2⟩
  intro hnil
  rw [hnil] at h2
  simp at h2

lemma overB_spec (b : Block) (st : PState) (h : overB b st = true) :
    st.h + b.height > 420 ∧ st.cur ≠ [] := by
  have := (Bool.and_eq_true _ _).mp h
  rcases this with ⟨h1, h2⟩
  refine ⟨of_decide_eq_true h1, ?_⟩
  intro hnil
  rw [hnil] at h2
  simp at h2

lemma overB_false (b : Block) (st : PState) (h : overB b st = false)
    (hne : st.cur ≠ []) : st.h + b.height ≤ 420 := by
  unfold overB at h
  rcases Bool.and_eq_false_iff.mp h with h1 | h1
  · exact not_lt.mp (of_decide_eq_false h1)
  · exfalso
    apply hne
    cases hc : st.cur with
    | nil => rfl
    | cons a t => rw [hc] at h1; simp at h1

lemma protectB_spec (b : Block) (nxt : Option Block) (st : PState)
    (h : protectB b nxt st = true) :
    (b.btype = .h2 ∨ b.btype = .h3) ∧
      (∃ n, nxt = some n ∧ st.h + b.height + n.height > 420) ∧ st.cur ≠ [] := by
  have h' := (Bool.and_eq_true _ _).mp h
  rcases h' with ⟨h12, h3⟩
  have h'' := (Bool.and_eq_true _ _).mp h12
  rcases h'' with ⟨h1, h2⟩
  refine ⟨?_, ?_, protectB_cur_ne b nxt st h⟩
  · unfold isHdr at h1
    rcases Bool.or_eq_true_iff.mp h1 with hh | hh
    · exact Or.inl (beq_iff_eq.mp hh)
    · exact Or.inr (beq_iff_eq.mp hh)
  · cases hn : nxt with
    | none => rw [hn] at h2; simp at h2
    | some n =>
      rw [hn] at h2
      exact ⟨n, rfl, of_decide_eq_true h2⟩

lemma ploop_ne_nil : ∀ (q : List Block) (st : PState), st.cur ≠ [] → ploop q st ≠ [] := by
  intro q
  induction q with
  | nil =>
    intro st h
    rw [ploop]
    rw [if_neg (by simpa using h)]
    simp
  | cons b rest ih =>
    intro st h
    rw [ploop]
    by_cases hp : protectB b rest.head? st = true
    · rw [pstep_protect b rest.head? st hp]
      simp
    · by_cases ho : overB b st = true
      · rw [pstep_over b rest.head? st (Bool.not_eq_true _ ▸ hp) ho]
        simp
      · rw [pstep_place b rest.head? st (Bool.not_eq_true _ ▸ hp) (Bool.not_eq_true _ ▸ ho)]
        rw [List.nil_append]
        exact ih _ (by simp)

lemma ploop_flat : ∀ (q : List Block) (st : PState),
    flatBlocks (ploop q st) = st.cur ++ q := by
  intro q
  induction q with
  | nil =>
    intro st
    rw [ploop]
    by_cases h : st.cur.isEmpty
    · rw [if_pos h]
      have : st.cur = [] := by
        cases hc : st.cur
        · rfl
        · rw [hc] at h; simp at h
      rw [this]
      rfl
    · rw [if_neg h]
      simp [flatBlocks, finalizeSlide]
  | cons b rest ih =>
    intro st
    rw [ploop, flatBlocks_append, ih]
    by_cases hp : protectB b rest.head? st = true
    · rw [pstep_protect b rest.head? st hp]
      simp [flatBlocks, finalizeSlide]
    · by_cases ho : overB b st = true
      · rw [pstep_over b rest.head? st (Bool.not_eq_true _ ▸ hp) ho]
        simp [flatBlocks, finalizeSlide]
      · rw [pstep_place b rest.head? st (Bool.not_eq_true _ ▸ hp) (Bool.not_eq_true _ ▸ ho)]
        simp [flatBlocks]

lemma ploop_blocks_ne : ∀ (q : List Block) (st : PState),
    ∀ s ∈ ploop q st, s.blocks ≠ [] := by
  intro q
  induction q with
  | nil =>
    intro st s hs
    rw [ploop] at hs
    by_cases h : st.cur.isEmpty
    · rw [if_pos h] at hs; simp at hs
    · rw [if_neg h] at hs
      rw [List.mem_singleton] at hs
      rw [hs]
      show st.cur ≠ []
      intro hnil
      rw [hnil] at h
      simp at h
  | cons b rest ih =>
    intro st s hs
    rw [ploop] at hs
    by_cases hp : protectB b rest.head? st = true
    · rw [pstep_protect b rest.head? st hp] at hs
      rcases List.mem_append.mp hs with h1 | h1
      · rw [List.mem_singleton] at h1
        rw [h1]
        exact protectB_cur_ne b rest.head? st hp
      · exact ih _ s h1
    · by_cases ho : overB b st = true
      · rw [pstep_over b rest.head? st (Bool.not_eq_true _ ▸ hp) ho] at hs
        rcases List.mem_append.mp hs with h1 | h1
        · rw [List.mem_singleton] at h1
          rw [h1]
          exact (overB_spec b st ho).2
        · exact ih _ s h1
      · rw [pstep_place b rest.head? st (Bool.not_eq_true _ ▸ hp) (Bool.not_eq_true _ ▸ ho)] at hs
        rw [List.nil_append] at hs
        exact ih _ s hs

lemma ploop_not_cover : ∀ (q : List Block) (st : PState),
    ∀ s ∈ ploop q st, s.is_cover = false := by
  intro q
  induction q with
  | nil =>
    intro st s hs
    rw [ploop] at hs
    by_cases h : st.cur.isEmpty
    · rw [if_pos h] at hs; simp at hs
    · rw [if_neg h] at hs
      rw [List.mem_singleton] at hs
      rw [hs]
      rfl
  | cons b rest ih =>
    intro st s hs
    rw [ploop] at hs
    by_cases hp : protectB b rest.head? st = true
    · rw [pstep_protect b rest.head? st hp] at hs
      rcases List.mem_append.mp hs with h1 | h1
      · rw [List.mem_singleton] at h1; rw [h1]; rfl
      · exact ih _ s h1
    · by_cases ho : overB b st = true
      · rw [pstep_over b rest.head? st (Bool.not_eq_true _ ▸ hp) ho] at hs
        rcases List.mem_append.mp hs with h1 | h1
        · rw [List.mem_singleton] at h1; rw [h1]; rfl
        · exact ih _ s h1
      · rw [pstep_place b rest.head? st (Bool.not_eq_true _ ▸ hp) (Bool.not_eq_true _ ▸ ho)] at hs
        rw [List.nil_append] at hs
        exact ih _ s hs

/-! ## Claim C1 — budget invariant -/

lemma ploop_budget : ∀ (q : List Block) (st : PState),
    st.h = sumH st.cur → (1 < st.cur.length → st.h ≤ 420) →
    ∀ s ∈ ploop q st, 1 < s.blocks.length → sumH s.blocks ≤ 420 := by
  intro q
  induction q with
  | nil =>
    intro st hinv hbud s hs hlen
    rw [ploop] at hs
    by_cases h : st.cur.isEmpty
    · rw [if_pos h] at hs; simp at hs
    · rw [if_neg h] at hs
      rw [List.mem_singleton] at hs
      rw [hs] at hlen ⊢
      show sumH st.cur ≤ 420
      rw [← hinv]
      exact hbud hlen
  | cons b rest ih =>
    intro st hinv hbud s hs hlen
    rw [ploop] at hs
    by_cases hp : protectB b rest.head? st = true
    · rw [pstep_protect b rest.head? st hp] at hs
      rcases List.mem_append.mp hs with h1 | h1
      · rw [List.mem_singleton] at h1
        rw [h1] at hlen ⊢
        show sumH st.cur ≤ 420
        rw [← hinv]
        exact hbud hlen
      · refine ih ⟨[b], b.height, st.idx + 1⟩ ?_ ?_ s h1 hlen
        · simp [sumH]
        · intro hh; simp at hh
    · by_cases ho : overB b st = true
      · rw [pstep_over b rest.head? st (Bool.not_eq_true _ ▸ hp) ho] at hs
        rcases List.mem_append.mp hs with h1 | h1
        · rw [List.mem_singleton] at h1
          rw [h1] at hlen ⊢
          show sumH st.cur ≤ 420
          rw [← hinv]
          exact hbud hlen
        · refine ih ⟨[b], b.height, st.idx + 1⟩ ?_ ?_ s h1 hlen
          · simp [sumH]
          · intro hh; simp at hh
      · rw [pstep_place b rest.head? st (Bool.not_eq_true _ ▸ hp) (Bool.not_eq_true _ ▸ ho)] at hs
        rw [List.nil_append] at hs
        refine ih ⟨st.cur ++ [b], st.h + b.height, st.idx⟩ ?_ ?_ s hs hlen
        · show st.h + b.height = sumH (st.cur ++ [b])
          rw [sumH_concat, hinv]
        · intro hh
          show st.h + b.height ≤ 420
          cases hc : st.cur with
          | nil =>
            rw [hc] at hh
            simp at hh
          | cons a t =>
            exact overB_false b st (Bool.not_eq_true _ ▸ ho) (by rw [hc]; simp)

lemma paginate_budget (bs : List Block) :
    ∀ s ∈ paginate bs, 1 < s.blocks.length → sumH s.blocks ≤ 420 := by
  intro s hs hlen
  unfold paginate at hs
  obtain ⟨s0, hs0, _, _, hblocks⟩ := renumber_mem _ _ _ s hs
  rw [hblocks] at hlen ⊢
  cases hf : (bs.find? (fun b => b.btype == .h1)) with
  | some c =>
    rw [hf] at hs0
    rcases List.mem_cons.mp hs0 with h1 | h1
    · rw [h1] at hlen
      simp [coverSlide] at hlen
    · exact ploop_budget _ _ rfl (by intro h; simp at h) s0 h1 hlen
  | none =>
    rw [hf] at hs0
    exact ploop_budget _ _ rfl (by intro h; simp at h) s0 hs0 hlen

/-- C1: for every input text (and any image resolver and inline-renderer
oracle), every slide of the parse output that contains more than one block
has total height at most `MAX_HEIGHT = 420`; and a slide holding exactly
one block may exceed 420 and is still emitted (witnessed by a 14-line code
block of height 450 that yields exactly one slide). -/
theorem c1_budget_invariant :
    (∀ (res : List Char → Option ℚ) (mc : List Char → Bool) (text : List Char),
       ∀ s ∈ parse res mc text, 1 < s.blocks.length → sumH s.blocks ≤ 420) ∧
    (∃ (text : List Char) (s : Slide), parse noRes noCard text = [s] ∧
       s.blocks.length = 1 ∧ 420 < sumH s.blocks) := by
  constructor
  · intro res mc text s hs hlen
    exact paginate_budget _ s hs hlen
  · refine ⟨("```\na\nb\nc\nd\ne\nf\ng\nh\ni\nj\nk\nl\n```".data),
      (parse noRes noCard ("```\na\nb\nc\nd\ne\nf\ng\nh\ni\nj\nk\nl\n```".data)).headI, ?_⟩
    with_unfolding_all decide

/-- Witness for C1 at the concrete input `"a\n\nb"`: a single slide with
two paragraph blocks whose summed height is within budget. -/
theorem c1_budget_invariant_witness :
    sumH ((parse noRes noCard ("a\n\nb".data)).headI).blocks ≤ 420 :=
  c1_budget_invariant.1 noRes noCard ("a\n\nb".data) _
    (by with_unfolding_all decide) (by with_unfolding_all decide)

/-! ## Claim C3 — cover invariant -/

/-- C3: if the tokenized block sequence contains a `'h1'` block, the first
slide of the output is the cover slide built from the first such block
(`is_cover = true`, `cover_title` equal to its content) and every other
slide has `is_cover = false` (so exactly one cover slide exists); if no
`'h1'` block is present, no slide is a cover slide; and no `'h1'` block
ever appears among the blocks placed on any slide. -/
theorem c3_cover_invariant (res : List Char → Option ℚ) (mc : List Char → Bool)
    (text : List Char) :
    (∀ c, (tokenize res mc text).find? (fun b => b.btype == .h1) = some c →
       ∃ s0 t, parse res mc text = s0 :: t ∧ s0.is_cover = true ∧
         s0.cover_title = c.content ∧ ∀ s ∈ t, s.is_cover = false) ∧
    ((tokenize res mc text).find? (fun b => b.btype == .h1) = none →
       ∀ s ∈ parse res mc text, s.is_cover = false) ∧
    (∀ s ∈ parse res mc text, ∀ b ∈ s.blocks, b.btype ≠ .h1) := by
  refine ⟨?_, ?_, ?_⟩
  · intro c hfind
    show ∃ s0 t, paginate (tokenize res mc text) = s0 :: t ∧ _
    unfold paginate
    rw [hfind]
    rw [renumber]
    refine ⟨_, _, rfl, rfl, rfl, ?_⟩
    intro s hs
    obtain ⟨s0, hs0, hcov, _, _⟩ := renumber_mem _ _ _ s hs
    rw [hcov]
    exact ploop_not_cover _ _ s0 hs0
  · intro hfind s hs
    unfold parse paginate at hs
    rw [hfind] at hs
    obtain ⟨s0, hs0, hcov, _, _⟩ := renumber_mem _ _ _ s hs
    rw [hcov]
    exact ploop_not_cover _ _ s0 hs0
  · intro s hs b hb
    unfold parse paginate at hs
    obtain ⟨s0, hs0, _, _, hblocks⟩ := renumber_mem _ _ _ s hs
    rw [hblocks] at hb
    have hbmem : b ∈ (tokenize res mc text).filter (fun b => !(b.btype == .h1)) := by
      cases hf : ((tokenize res mc text).find? (fun b => b.btype == .h1)) with
      | some c =>
        rw [hf] at hs0
        rcases List.mem_cons.mp hs0 with h1 | h1
        · rw [h1] at hb
          simp [coverSlide] at hb
        · have := flatBlocks_mem b s0 _ h1 hb
          rwa [ploop_flat, List.nil_append] at this
      | none =>
        rw [hf] at hs0
        have := flatBlocks_mem b s0 _ hs0 hb
        rwa [ploop_flat, List.nil_append] at this
    have := List.of_mem_filter hbmem
    simpa using this

/-- Witness for C3 at the concrete input `"# T\nbody"`: the first h1 block
found is the one with content `"T"`, the first output slide is the cover
carrying that title, and the sole content slide is not a cover. -/
theorem c3_cover_invariant_witness :
    ∃ s0 t, parse noRes noCard ("# T\nbody".data) = s0 :: t ∧ s0.is_cover = true ∧
      s0.cover_title = (createBlock noRes noCard .h1 ("T".data)).content ∧
      ∀ s ∈ t, s.is_cover = false :=
  (c3_cover_invariant noRes noCard ("# T\nbody".data)).1
    (createBlock noRes noCard .h1 ("T".data)) (by with_unfolding_all rfl)

/-! ## Claim C2 — orphan-header protection -/

/-- The weakened orphan-freedom condition that the code actually
guarantees for one closed slide `s` followed by the remaining slides
`rest`: if `s` ends with a Heading2/Heading3 block, then (letting `x` be
the first block of the next slide, which exists) either the closed slide's
total height plus `x.height` already exceeds `MAX_HEIGHT`, or `x` is
itself a Heading2/Heading3 header whose own following block `y` (the next
block of the flow, read off the remaining slides) makes
`total + x.height + y.height` exceed `MAX_HEIGHT`. -/
def linkOK (s : Slide) (rest : List Slide) : Prop :=
  ∀ b, s.blocks.getLast? = some b → (b.btype = .h2 ∨ b.btype = .h3) →
    ∃ s2 t2, rest = s2 :: t2 ∧ ∃ x, s2.blocks.head? = some x ∧
      (sumH s.blocks + x.height > 420 ∨
       ((x.btype = .h2 ∨ x.btype = .h3) ∧
        ∃ y, (s2.blocks.tail ++ flatBlocks t2).head? = some y ∧
          sumH s.blocks + x.height + y.height > 420))

/-- `linkOK` holding between every slide and its successors (the last
slide is exempt). -/
def chainOK : List Slide → Prop
  | [] => True
  | s :: t => (t ≠ [] → linkOK s t) ∧ chainOK t

lemma ploop_first_slide (q : List Block) (st : PState) (b : Block) (cs : List Block)
    (hcur : st.cur = b :: cs) :
    ∃ s2 t2 xs, ploop q st = s2 :: t2 ∧ s2.blocks = b :: xs ∧
      xs ++ flatBlocks t2 = cs ++ q := by
  have hne := ploop_ne_nil q st (by rw [hcur]; simp)
  cases hL : ploop q st with
  | nil => exact absurd hL hne
  | cons s2 t2 =>
    have hflat := ploop_flat q st
    rw [hL] at hflat
    have hbne := ploop_blocks_ne q st s2 (by rw [hL]; exact List.mem_cons_self _ _)
    cases hsb : s2.blocks with
    | nil => exact absurd hsb hbne
    | cons x xs =>
      rw [show flatBlocks (s2 :: t2) = s2.blocks ++ flatBlocks t2 from rfl, hsb, hcur] at hflat
      rw [List.cons_append] at hflat
      have hx : x = b := (List.cons.injEq _ _ _ _ ▸ hflat).1
      have hxs : xs ++ flatBlocks t2 = cs ++ q := (List.cons.injEq _ _ _ _ ▸ hflat).2
      exact ⟨s2, t2, xs, rfl, by rw [hsb, hx], hxs⟩

lemma ploop_chain : ∀ (q : List Block) (st : PState),
    st.h = sumH st.cur → chainOK (ploop q st) := by
  intro q
  induction q with
  | nil =>
    intro st _
    rw [ploop]
    by_cases h : st.cur.isEmpty
    · rw [if_pos h]; trivial
    · rw [if_neg h]
      exact ⟨fun hne => absurd rfl hne, trivial⟩
  | cons b rest ih =>
    intro st hinv
    rw [ploop]
    by_cases hp : protectB b rest.head? st = true
    · rw [pstep_protect b rest.head? st hp]
      obtain ⟨hhdr, ⟨n, hn, hineq⟩, hcurne⟩ := protectB_spec b rest.head? st hp
      obtain ⟨s2, t2, xs, hL, hsb, hxs⟩ :=
        ploop_first_slide rest ⟨[b], b.height, st.idx + 1⟩ b [] rfl
      rw [List.singleton_append, hL]
      constructor
      · intro _
        intro b0 hlast hb0
        refine ⟨s2, t2, rfl, b, by rw [hsb]; rfl, Or.inr ⟨hhdr, n, ?_, ?_⟩⟩
        · rw [hsb]
          show (xs ++ flatBlocks t2).head? = some n
          rw [hxs, List.nil_append]
          cases rest with
          | nil => simp at hn
          | cons m rest2 =>
            have : m = n := by
              have := hn
              simp at this
              exact this
            rw [this.symm] at hn ⊢
            rfl
        · show sumH (finalizeSlide st.cur st.idx).blocks + b.height + n.height > 420
          show sumH st.cur + b.height + n.height > 420
          rw [← hinv]
          exact hineq
      · rw [← hL]
        exact ih ⟨[b], b.height, st.idx + 1⟩ (by simp [sumH])
    · by_cases ho : overB b st = true
      · rw [pstep_over b rest.head? st (Bool.not_eq_true _ ▸ hp) ho]
        obtain ⟨hineq, hcurne⟩ := overB_spec b st ho
        obtain ⟨s2, t2, xs, hL, hsb, hxs⟩ :=
          ploop_first_slide rest ⟨[b], b.height, st.idx + 1⟩ b [] rfl
        rw [List.singleton_append, hL]
        constructor
        · intro _
          intro b0 hlast hb0
          refine ⟨s2, t2, rfl, b, by rw [hsb]; rfl, Or.inl ?_⟩
          show sumH (finalizeSlide st.cur st.idx).blocks + b.height > 420
          show sumH st.cur + b.height > 420
          rw [← hinv]
          exact hineq
        · rw [← hL]
          exact ih ⟨[b], b.height, st.idx + 1⟩ (by simp [sumH])
      · rw [pstep_place b rest.head? st (Bool.not_eq_true _ ▸ hp) (Bool.not_eq_true _ ▸ ho)]
        rw [List.nil_append]
        refine ih ⟨st.cur ++ [b], st.h + b.height, st.idx⟩ ?_
        show st.h + b.height = sumH (st.cur ++ [b])
        rw [sumH_concat, hinv]

lemma flatBlocks_renumber (total : Nat) : ∀ (i : Nat) (ss : List Slide),
    flatBlocks (renumber total i ss) = flatBlocks ss := by
  intro i ss
  induction ss generalizing i with
  | nil => rfl
  | cons s t ih => simp [renumber, flatBlocks, ih]

lemma chainOK_renumber (total : Nat) : ∀ (ss : List Slide) (i : Nat),
    chainOK ss → chainOK (renumber total i ss) := by
  intro ss
  induction ss with
  | nil => intro i _; trivial
  | cons s t ih =>
    intro i h
    rw [renumber]
    refine ⟨?_, ih (i + 1) h.2⟩
    intro hne
    intro b hlast hb
    have htne : t ≠ [] := by
      intro hnil
      rw [hnil] at hne
      exact hne rfl
    obtain ⟨s2, t2, ht2, x, hx, hdisj⟩ := h.1 htne b hlast hb
    rw [ht2, renumber]
    refine ⟨_, _, rfl, x, hx, ?_⟩
    rcases hdisj with h1 | ⟨hxh, y, hy, hineq⟩
    · exact Or.inl h1
    · refine Or.inr ⟨hxh, y, ?_, hineq⟩
      show ((({ s2 with footer_right := footerFmt (i + 1 + 1) total } : Slide)).blocks.tail ++
        flatBlocks (renumber total (i + 1 + 1) t2)).head? = some y
      rw [flatBlocks_renumber]
      exact hy

/-- C2 (amended): the orphan-protection mechanism is exactly as claimed —
before placing a Heading2/Heading3 block, if
`currentHeight + header.height + next.height > MAX_HEIGHT` and the current
slide is non-empty, the current slide is closed and the header starts a
fresh slide (second conjunct).  The resulting global guarantee, however,
is weaker than unconditional orphan-freedom: a non-final slide can end
with a Heading2/Heading3 block exactly in the unavoidable cases recorded
by `linkOK` — when the closed slide's height plus the next placed block's
height exceeds the budget, or the next placed block is itself a header
that triggered the protection (first conjunct, `chainOK`). -/
theorem c2_orphan_protection :
    (∀ (res : List Char → Option ℚ) (mc : List Char → Bool) (text : List Char),
       chainOK (parse res mc text)) ∧
    (∀ (b n : Block) (st : PState), (b.btype = .h2 ∨ b.btype = .h3) →
       st.h + b.height + n.height > 420 → st.cur ≠ [] →
       pstep b (some n) st = ([finalizeSlide st.cur st.idx], ⟨[b], b.height, st.idx + 1⟩)) := by
  constructor
  · intro res mc text
    unfold parse paginate
    cases hf : ((tokenize res mc text).find? (fun b => b.btype == .h1)) with
    | some c =>
      apply chainOK_renumber
      refine ⟨?_, ploop_chain _ _ rfl⟩
      intro _
      intro b hlast hb
      simp [coverSlide] at hlast
    | none =>
      apply chainOK_renumber
      exact ploop_chain _ _ rfl
  · intro b n st hhdr hineq hcur
    apply pstep_protect
    unfold protectB
    have h1 : isHdr b = true := by
      unfold isHdr
      rcases hhdr with h | h <;> rw [h] <;> rfl
    have h3 : st.cur.isEmpty = false := by
      cases hc : st.cur with
      | nil => exact absurd hc hcur
      | cons a u => rfl
    rw [h1, h3]
    simp [hineq]

/-- Counterexample to C2 as stated: for the input consisting of a
Heading2 followed by a 12-line code block (height 390, so
`60 + 390 > 420`), the protection cannot fire (the current slide is empty
when the header is placed) and the output's first slide — not the last —
ends with the Heading2 block while the code block remains. -/
theorem c2_counterexample :
    (parse noRes noCard ("## A\n```\nx1\nx2\nx3\nx4\nx5\nx6\nx7\nx8\nx9\nx10\n```".data)).length = 2 ∧
    ((parse noRes noCard ("## A\n```\nx1\nx2\nx3\nx4\nx5\nx6\nx7\nx8\nx9\nx10\n```".data)).headI.blocks.map
      Block.btype = [BType.h2]) ∧
    ((parse noRes noCard ("## A\n```\nx1\nx2\nx3\nx4\nx5\nx6\nx7\nx8\nx9\nx10\n```".data)).getD 1
      default).blocks ≠ [] := by
  with_unfolding_all decide

/-- Witness for C2 (amended), applying the mechanism conjunct at a
concrete header, successor and state. -/
theorem c2_orphan_protection_witness :
    pstep ⟨.h2, ['A'], 60⟩ (some ⟨.code, ['c'], 390⟩) ⟨[⟨.p, ['p'], 100⟩], 100, 3⟩ =
      ([finalizeSlide [⟨.p, ['p'], 100⟩] 3], ⟨[⟨.h2, ['A'], 60⟩], 60, 4⟩) :=
  c2_orphan_protection.2 ⟨.h2, ['A'], 60⟩ ⟨.code, ['c'], 390⟩ ⟨[⟨.p, ['p'], 100⟩], 100, 3⟩
    (Or.inl rfl) (by with_unfolding_all decide) (by simp)

/-! ## List splitter lemmas -/

lemma pySplitNl_ne_nil (l : List Char) : pySplitNl l ≠ [] := by
  cases l with
  | nil => simp [pySplitNl]
  | cons c rest =>
    rw [pySplitNl]
    by_cases h : c = '\n'
    · rw [if_pos h]; simp
    · rw [if_neg h]
      cases pySplitNl rest <;> simp

lemma pySplitNl_no_nl (l : List Char) : ∀ s ∈ pySplitNl l, '\n' ∉ s := by
  induction l with
  | nil => intro s hs; rw [pySplitNl] at hs; rw [List.mem_singleton] at hs; rw [hs]; simp
  | cons c rest ih =>
    intro s hs
    rw [pySplitNl] at hs
    by_cases h : c = '\n'
    · rw [if_pos h] at hs
      rcases List.mem_cons.mp hs with h1 | h1
      · rw [h1]; simp
      · exact ih s h1
    · rw [if_neg h] at hs
      cases hsp : pySplitNl rest with
      | nil => exact absurd hsp (pySplitNl_ne_nil rest)
      | cons t ts =>
        rw [hsp] at hs
        rcases List.mem_cons.mp hs with h1 | h1
        · rw [h1]
          intro hmem
          rcases List.mem_cons.mp hmem with h2 | h2
          · exact h h2.symm
          · exact ih t (by rw [hsp]; exact List.mem_cons_self _ _) h2
        · exact ih s (by rw [hsp]; exact List.mem_cons_of_mem _ h1)

lemma pySplitNl_of_no_nl (l : List Char) (h : '\n' ∉ l) : pySplitNl l = [l] := by
  induction l with
  | nil => rfl
  | cons c rest ih =>
    rw [pySplitNl]
    rw [if_neg (by intro hc; exact h (by rw [hc]; exact List.mem_cons_self _ _))]
    rw [ih (by intro hm; exact h (List.mem_cons_of_mem _ hm))]

lemma pySplitNl_append_nl (l x : List Char) (h : '\n' ∉ l) :
    pySplitNl (l ++ '\n' :: x) = l :: pySplitNl x := by
  induction l with
  | nil => rw [List.nil_append, pySplitNl, if_pos rfl]
  | cons c rest ih =>
    rw [List.cons_append, pySplitNl]
    rw [if_neg (by intro hc; exact h (by rw [hc]; exact List.mem_cons_self _ _))]
    rw [ih (by intro hm; exact h (List.mem_cons_of_mem _ hm))]

lemma pySplitNl_joinNl : ∀ (ls : List (List Char)), ls ≠ [] →
    (∀ s ∈ ls, '\n' ∉ s) → pySplitNl (joinNl ls) = ls := by
  intro ls
  induction ls with
  | nil => intro h; exact absurd rfl h
  | cons l rest ih =>
    intro _ hnl
    cases rest with
    | nil =>
      rw [joinNl_singleton]
      exact pySplitNl_of_no_nl l (hnl l (List.mem_cons_self _ _))
    | cons l2 rest2 =>
      show pySplitNl (l ++ '\n' :: joinNl (l2 :: rest2)) = _
      rw [pySplitNl_append_nl l _ (hnl l (List.mem_cons_self _ _))]
      rw [ih (by simp) (fun s hs => hnl s (List.mem_cons_of_mem _ hs))]

lemma sum_map_itemH (ls : List (List Char)) :
    (ls.map itemH).sum = (ls.map visualLines).sum * 24 + (ls.length : ℚ) * 8 := by
  induction ls with
  | nil => simp
  | cons a t ih =>
    simp only [List.map_cons, List.sum_cons, ih, List.length_cons]
    unfold itemH
    push_cast
    ring

lemma listHeight_joinNl (ls : List (List Char)) (hne : ls ≠ [])
    (hnl : ∀ s ∈ ls, '\n' ∉ s) :
    listHeight (joinNl ls) = (ls.map itemH).sum + 10 := by
  unfold listHeight
  rw [pySplitNl_joinNl ls hne hnl, sum_map_itemH]

lemma itemH_nonneg (item : List Char) : 0 ≤ itemH item := by
  unfold itemH visualLines
  have h1 : (1 : ℚ) ≤ max 1 (((cleanItem item).length : ℚ) / 20) := le_max_left _ _
  nlinarith

lemma sum_take_mono (f : List Char → ℚ) (hf : ∀ x, 0 ≤ f x) :
    ∀ (l : List (List Char)) (m n : Nat), m ≤ n →
    ((l.take m).map f).sum ≤ ((l.take n).map f).sum := by
  intro l
  induction l with
  | nil => intro m n _; simp
  | cons a t ih =>
    intro m n hmn
    cases m with
    | zero =>
      simp only [List.take_zero, List.map_nil, List.sum_nil]
      apply List.sum_nonneg
      intro x hx
      obtain ⟨y, _, hy⟩ := List.mem_map.mp hx
      rw [← hy]
      exact hf y
    | succ m' =>
      cases n with
      | zero => exact absurd hmn (by simp)
      | succ n' =>
        simp only [List.take_succ_cons, List.map_cons, List.sum_cons]
        exact add_le_add_left (ih m' n' (Nat.succ_le_succ_iff.mp hmn)) _

lemma fitGo_spec (avail : ℚ) : ∀ (hs : List ℚ) (cur : ℚ) (i : Nat) (si : Option Nat) (k : Nat),
    fitGo avail hs cur i si = some k →
    si = some k ∨ ∃ m, 1 ≤ m ∧ m ≤ hs.length ∧ k + 1 = i + m ∧
      cur + (hs.take m).sum ≤ avail := by
  intro hs
  induction hs with
  | nil =>
    intro cur i si k h
    rw [fitGo] at h
    exact Or.inl h
  | cons x t ih =>
    intro cur i si k h
    rw [fitGo] at h
    by_cases hc : cur + x > avail
    · rw [if_pos hc] at h
      exact Or.inl h
    · rw [if_neg hc] at h
      rcases ih (cur + x) (i + 1) (some i) k h with h1 | ⟨m, hm1, hm2, hm3, hm4⟩
      · have hk : k = i := by
          have := h1
          simp at this
          exact this.symm
        refine Or.inr ⟨1, le_refl 1, by simp, by omega, ?_⟩
        simp only [List.take_succ_cons, List.take_zero, List.sum_cons, List.sum_nil]
        rw [add_zero]
        exact not_lt.mp hc
      · refine Or.inr ⟨m + 1, by omega, by simpa using hm2, by omega, ?_⟩
        simp only [List.take_succ_cons, List.sum_cons]
        rw [← add_assoc]
        exact hm4

lemma fitIdx_spec (hs : List ℚ) (avail : ℚ) (k : Nat) (h : fitIdx hs avail = some k) :
    k + 1 ≤ hs.length ∧ 10 + (hs.take (k + 1)).sum ≤ avail := by
  rcases fitGo_spec avail hs 10 0 none k h with h1 | ⟨m, hm1, hm2, hm3, hm4⟩
  · simp at h1
  · have hmk : m = k + 1 := by omega
    rw [hmk] at hm2 hm4
    exact ⟨hm2, by linarith⟩

lemma stickyGo_le (items : List (List Char)) (ci k : Nat) :
    ∀ t, stickyGo items ci k t ≤ max k t := by
  intro t
  induction t with
  | zero => rw [stickyGo]; exact le_max_left _ _
  | succ t' ih =>
    rw [stickyGo]
    by_cases h : indentOf (items.getD (t' + 1) []) < ci
    · rw [if_pos h]
      exact le_trans (Nat.le_succ t') (le_max_right _ _)
    · rw [if_neg h]
      exact le_trans ih (max_le_max (le_refl k) (Nat.le_succ t'))

lemma stickyAdjust_le (items : List (List Char)) (k : Nat) :
    stickyAdjust items k ≤ k := by
  unfold stickyAdjust
  by_cases h : 0 < k
  · rw [if_pos h]
    simpa using stickyGo_le items (indentOf (items.getD k [])) k k
  · rw [if_neg h]

/-! ## Claim C7 — list splitter contract -/

/-- C7: the list splitter either returns `some (b1, b2)` — in which case
`b1` is the list block built from a proper prefix of the items whose
estimated height (per-item heights accumulated from the base padding 10)
is at most `available_height`, and `b2` is the list block built from the
remaining items (dedented) — or it returns `none` (Python's
`(None, None)`); it returns `none` whenever the very first item already
overflows `available_height`.  `some` is returned only with both parts
non-empty (the prefix has `k + 1 ≥ 1` items and `k + 1 <` the item
count). -/
theorem c7_split_contract (res : List Char → Option ℚ) (mc : List Char → Bool)
    (block : Block) (avail : ℚ) :
    (∀ b1 b2, trySplitList res mc block avail = some (b1, b2) →
       b1.height ≤ avail ∧
       ∃ k, k + 1 < (pySplitNl block.content).length ∧
         b1 = createBlock res mc .list (joinNl ((pySplitNl block.content).take (k + 1))) ∧
         b2 = createBlock res mc .list (pyDedent (joinNl ((pySplitNl block.content).drop (k + 1))))) ∧
    (∀ it0 rest, pySplitNl block.content = it0 :: rest → 10 + itemH it0 > avail →
       trySplitList res mc block avail = none) := by
  constructor
  · intro b1 b2 hsome
    simp only [trySplitList] at hsome
    cases hfit : fitIdx ((pySplitNl block.content).map itemH) avail with
    | none => rw [hfit] at hsome; simp at hsome
    | some k0 =>
      rw [hfit] at hsome
      dsimp only at hsome
      by_cases hemp : (((pySplitNl block.content).take (stickyAdjust (pySplitNl block.content) k0 + 1)).isEmpty ||
          ((pySplitNl block.content).drop (stickyAdjust (pySplitNl block.content) k0 + 1)).isEmpty) = true
      · rw [if_pos hemp] at hsome
        simp at hsome
      · rw [if_neg hemp] at hsome
        have hb12 := Prod.mk.injEq _ _ _ _ ▸ (Option.some.injEq _ _ ▸ hsome)
        have hb1 : createBlock res mc .list
            (joinNl ((pySplitNl block.content).take (stickyAdjust (pySplitNl block.content) k0 + 1))) = b1 :=
          hb12.1
        have hb2 : createBlock res mc .list
            (pyDedent (joinNl ((pySplitNl block.content).drop (stickyAdjust (pySplitNl block.content) k0 + 1)))) = b2 :=
          hb12.2
        set items := pySplitNl block.content with hitems
        set k := stickyAdjust items k0 with hk
        have hboth := Bool.or_eq_false_iff.mp (Bool.not_eq_true _ ▸ hemp)
        have hp1ne : items.take (k + 1) ≠ [] := by
          intro hnil
          have := hboth.1
          rw [hnil] at this
          simp at this
        have hp2ne : items.drop (k + 1) ≠ [] := by
          intro hnil
          have := hboth.2
          rw [hnil] at this
          simp at this
        have hklen : k + 1 < items.length := by
          by_contra hge
          exact hp2ne (List.drop_eq_nil_of_le (by omega))
        have hfs := fitIdx_spec _ avail k0 hfit
        have hkle : k ≤ k0 := stickyAdjust_le items k0
        have hsum : ((items.take (k + 1)).map itemH).sum ≤
            ((items.take (k0 + 1)).map itemH).sum :=
          sum_take_mono itemH itemH_nonneg items (k + 1) (k0 + 1) (by omega)
        have hsum2 : 10 + ((items.take (k0 + 1)).map itemH).sum ≤ avail := by
          have := hfs.2
          rwa [← List.map_take] at this
        have hh1 : b1.height = ((items.take (k + 1)).map itemH).sum + 10 := by
          rw [← hb1]
          show listHeight (joinNl (items.take (k + 1))) = _
          rw [listHeight_joinNl _ hp1ne]
          intro s hs
          exact pySplitNl_no_nl block.content s (List.mem_of_mem_take hs)
        refine ⟨by rw [hh1]; linarith, k, hklen, hb1.symm, hb2.symm⟩
  · intro it0 rest hsplit hover
    simp only [trySplitList, hsplit, List.map_cons]
    rw [fitIdx, fitGo, if_pos hover]

/-- Witness for C7 at concrete inputs: the two-item list `"- a\n- b"`
split at budget 50 yields a head block of height 42 ≤ 50, and a
single-item list whose first item (height 32, plus base padding 10)
already overflows budget 20 yields `none`. -/
theorem c7_split_contract_witness :
    (createBlock noRes noCard .list
        (joinNl ((pySplitNl (("- a\n- b".data) : List Char)).take (0 + 1)))).height ≤ 50 ∧
    trySplitList noRes noCard ⟨.list, "- a".data, 42⟩ 20 = none :=
  ⟨((c7_split_contract noRes noCard ⟨.list, "- a\n- b".data, 0⟩ 50).1
      (createBlock noRes noCard .list
        (joinNl ((pySplitNl (("- a\n- b".data) : List Char)).take (0 + 1))))
      (createBlock noRes noCard .list
        (pyDedent (joinNl ((pySplitNl (("- a\n- b".data) : List Char)).drop (0 + 1)))))
      (by with_unfolding_all decide)).1,
   (c7_split_contract noRes noCard ⟨.list, "- a".data, 42⟩ 20).2
      ("- a".data) [] (by with_unfolding_all rfl) (by with_unfolding_all decide)⟩

/-! ## Claim C8 — sticky-parent rule -/

lemma stickyGo_run (items : List (List Char)) (ci k p : Nat)
    (hlt : indentOf (items.getD p []) < ci) :
    ∀ t, p ≤ t →
    (∀ j, p < j → j ≤ t → ¬ indentOf (items.getD j []) < ci) →
    stickyGo items ci k t = if 0 < p then p - 1 else k := by
  intro t
  induction t with
  | zero =>
    intro hpt _
    have hp0 : p = 0 := Nat.le_zero.mp hpt
    rw [stickyGo, hp0]
    simp
  | succ t' ih =>
    intro hpt hnear
    rw [stickyGo]
    by_cases hpe : p = t' + 1
    · rw [if_pos (by rw [← hpe]; exact hlt)]
      rw [if_pos (by omega)]
      omega
    · have hplt : p ≤ t' := by omega
      rw [if_neg (hnear (t' + 1) (by omega) (le_refl _))]
      exact ih hplt (fun j h1 h2 => hnear j h1 (by omega))

/-- C8: if the item at the computed split index `k` is more indented than
some earlier item, and `p` is the nearest earlier position whose line is
less indented (the parent), then the sticky-parent rule moves the split
index to `p - 1` — excluding the ancestor line and everything after it
from the head part — unless the ancestor is the first item (`p = 0`), in
which case the original split index `k` is kept. -/
theorem c8_sticky_parent (items : List (List Char)) (k : Nat)
    (hk : 0 < k) (hklen : k < items.length) (p : Nat) (hp : p < k)
    (hlt : indentOf (items.getD p []) < indentOf (items.getD k []))
    (hnear : ∀ j, p < j → j ≤ k → ¬ indentOf (items.getD j []) < indentOf (items.getD k [])) :
    stickyAdjust items k = if 0 < p then p - 1 else k := by
  unfold stickyAdjust
  rw [if_pos hk]
  exact stickyGo_run items (indentOf (items.getD k [])) k p hlt k (Nat.le_of_lt hp) hnear

/-- Witness for C8: in the list `["- a", "- b", "  - c"]` with split index
2, the nearest less-indented ancestor of item 2 is item 1, so the split
index is moved back to 0; and in `["- a", "  - b", "  - c"]` the ancestor
is item 0, so the original index is kept. -/
theorem c8_sticky_parent_witness :
    stickyAdjust ["- a".data, "- b".data, "  - c".data] 2 = (if 0 < 1 then 1 - 1 else 2) ∧
    stickyAdjust ["- a".data, "  - b".data, "  - c".data] 2 = (if 0 < 0 then 0 - 1 else 2) := by
  constructor
  · exact c8_sticky_parent ["- a".data, "- b".data, "  - c".data] 2 (by decide) (by decide)
      1 (by decide) (by decide)
      (by intro j h1 h2; have hj : j = 2 := (by omega); subst hj; decide)
  · exact c8_sticky_parent ["- a".data, "  - b".data, "  - c".data] 2 (by decide) (by decide)
      0 (by decide) (by decide)
      (by intro j h1 h2
          have hj : j = 1 ∨ j = 2 := (by omega)
          rcases hj with hj | hj <;> subst hj <;> decide)
